import Mathlib

/-!
Verification of the qword kernel VFS dispatch layer (`src/root/src/kernel/fd/vfs/vfs.c`)
and keyboard line discipline (`src/root/src/kernel/misc/kbd.c`) against their
natural-language specification.

Strings are embedded as `List Char` (the content of a NUL-terminated C string,
which by construction contains no NUL byte); reading the terminator or a byte
beyond the written region is modelled by `List.getD _ _ '\x00'`, i.e. the
buffers are taken to be zero-initialized.  Machine `size_t` arithmetic appears
only in the mount scan, where `guess` is initialized to `(size_t)-1 = 2^64-1`.
-/

/-! ## Mount table and resolver (`vfs.c`, `vfs_get_mountpoint`) -/

/-- Mount record, `struct mnt_t` (name = target path, fs = driver tag, magic). -/
structure mnt_t where
  name : List Char
  fs : Nat
  magic : Int
deriving DecidableEq

/-- `(size_t)-1`, the initial value of `guess`. -/
def SIZE_MAX64 : Nat := 2 ^ 64 - 1

/-- The per-record test of the scan loop in `vfs_get_mountpoint`:
`!kstrncmp(path, mnts[i]->name, len)` (the name is a byte prefix of the path)
and `path[len] == '/' || path[len] == '\0' || !kstrcmp(mnts[i]->name, "/")`. -/
def mnt_match (path : List Char) (m : mnt_t) : Bool :=
  m.name.isPrefixOf path &&
    ((path.getD m.name.length '\x00' == '/' || path.getD m.name.length '\x00' == '\x00')
      || m.name == ['/'])

/-- The scan loop of `vfs_get_mountpoint`: fold over the dumped array
(entries may be null), carrying `(guess, guess_size)`; a record is selected
iff it matches and its name length strictly exceeds `guess_size`. -/
def scan_mounts (path : List Char) : List (Option mnt_t) → Nat → Nat → Nat → Nat × Nat
  | [], _, g, gs => (g, gs)
  | none :: rest, i, g, gs => scan_mounts path rest (i + 1) g gs
  | some m :: rest, i, g, gs =>
      if mnt_match path m = true ∧ gs < m.name.length
      then scan_mounts path rest (i + 1) i m.name.length
      else scan_mounts path rest (i + 1) g gs

/-- The read `mnts[guess]` performed on line 64 of `vfs.c`, before the
`guess != -1` check, in a total embedding: `Option`-returning indexing. -/
def vfs_guess_read (path : List Char) (mnts : List (Option mnt_t)) : Option (Option mnt_t) :=
  mnts.get? (scan_mounts path mnts 0 SIZE_MAX64 0).1

/-- The `local_path` computation of `vfs_get_mountpoint`: `*local_path = path`,
advanced by `guess_size` when `guess_size > 1`, and set to `"/"` when the
remainder is empty. -/
def vfs_local_path (path : List Char) (gs : Nat) : List Char :=
  let lp0 := if 1 < gs then path.drop gs else path
  if lp0 = [] then ['/'] else lp0

/-- `vfs_get_mountpoint` body after a successful `ht_dump`: scan, compute
`local_path`, read `mnts[guess]`, and return it iff `guess != -1`. -/
def vfs_get_mountpoint (path : List Char) (mnts : List (Option mnt_t)) :
    Option (mnt_t × List Char) :=
  if (scan_mounts path mnts 0 SIZE_MAX64 0).1 ≠ SIZE_MAX64 then
    ((mnts.get? (scan_mounts path mnts 0 SIZE_MAX64 0).1).bind id).map
      (fun m => (m, vfs_local_path path (scan_mounts path mnts 0 SIZE_MAX64 0).2))
  else none

/-- Full `vfs_get_mountpoint` including the spinlock and the `ht_dump` call:
`dump = none` models `ht_dump` returning NULL.  The second component is the
state of `mountpoints_lock` at return (`true` = still held).  On the NULL
path the source returns without `spinlock_release`. -/
def vfs_get_mountpoint_sc (dump : Option (List (Option mnt_t))) (path : List Char) :
    Option (mnt_t × List Char) × Bool :=
  match dump with
  | none => (none, true)
  | some mnts => (vfs_get_mountpoint path mnts, false)

/-- The mounts used in the spec's resolution examples:
`{"/": fsA(0), "/usr": fsB(1), "/usr/local": fsC(2)}`. -/
def exampleMounts : List (Option mnt_t) :=
  [some ⟨"/".toList, 0, 10⟩, some ⟨"/usr".toList, 1, 11⟩, some ⟨"/usr/local".toList, 2, 12⟩]

theorem scan_mounts_gs_le (path : List Char) :
    ∀ (l : List (Option mnt_t)) (i g gs : Nat), gs ≤ (scan_mounts path l i g gs).2 := by
  intro l
  induction l with
  | nil => intro i g gs; simp [scan_mounts]
  | cons hd tl ih =>
      intro i g gs
      cases hd with
      | none => simpa [scan_mounts] using ih (i + 1) g gs
      | some m =>
          by_cases h : mnt_match path m = true ∧ gs < m.name.length
          · have := ih (i + 1) i m.name.length
            simp only [scan_mounts, if_pos h]
            omega
          · simpa [scan_mounts, if_neg h] using ih (i + 1) g gs

theorem scan_mounts_bound (path : List Char) :
    ∀ (l : List (Option mnt_t)) (i g gs j : Nat) (m : mnt_t),
      l.get? j = some (some m) → mnt_match path m = true →
      m.name.length ≤ (scan_mounts path l i g gs).2 := by
  intro l
  induction l with
  | nil => intro i g gs j m hget; simp at hget
  | cons hd tl ih =>
      intro i g gs j m hget hmatch
      cases j with
      | zero =>
          simp at hget
          subst hget
          by_cases h : mnt_match path m = true ∧ gs < m.name.length
          · simp only [scan_mounts, if_pos h]
            exact scan_mounts_gs_le path tl (i + 1) i m.name.length
          · have hle : m.name.length ≤ gs := by
              rcases Nat.lt_or_ge gs m.name.length with hlt | hge
              · exact absurd ⟨hmatch, hlt⟩ h
              · exact hge
            simp only [scan_mounts, if_neg h]
            exact le_trans hle (scan_mounts_gs_le path tl (i + 1) g gs)
      | succ j' =>
          rw [List.get?_cons_succ] at hget
          cases hd with
          | none => simpa [scan_mounts] using ih (i + 1) g gs j' m hget hmatch
          | some m0 =>
              by_cases h : mnt_match path m0 = true ∧ gs < m0.name.length
              · simpa [scan_mounts, if_pos h] using
                  ih (i + 1) i m0.name.length j' m hget hmatch
              · simpa [scan_mounts, if_neg h] using ih (i + 1) g gs j' m hget hmatch

theorem scan_mounts_provenance (path : List Char) :
    ∀ (l : List (Option mnt_t)) (i g gs : Nat),
      scan_mounts path l i g gs = (g, gs) ∨
      ∃ j m, l.get? j = some (some m) ∧ mnt_match path m = true ∧
        (scan_mounts path l i g gs).1 = i + j ∧
        (scan_mounts path l i g gs).2 = m.name.length ∧ 0 < m.name.length := by
  intro l
  induction l with
  | nil => intro i g gs; left; simp [scan_mounts]
  | cons hd tl ih =>
      intro i g gs
      cases hd with
      | none =>
          rcases ih (i + 1) g gs with h | ⟨j, m, hget, hm, h1, h2, h3⟩
          · left; simpa [scan_mounts] using h
          · right
            refine ⟨j + 1, m, by simpa using hget, hm, ?_, ?_, h3⟩
            · simp only [scan_mounts]; omega
            · simpa [scan_mounts] using h2
      | some m0 =>
          by_cases h : mnt_match path m0 = true ∧ gs < m0.name.length
          · rcases ih (i + 1) i m0.name.length with heq | ⟨j, m, hget, hm, h1, h2, h3⟩
            · right
              refine ⟨0, m0, by simp, h.1, ?_, ?_, ?_⟩
              · simp only [scan_mounts, if_pos h, heq]; omega
              · simp [scan_mounts, if_pos h, heq]
              · omega
            · right
              refine ⟨j + 1, m, by simpa using hget, hm, ?_, ?_, h3⟩
              · simp only [scan_mounts, if_pos h]; omega
              · simpa [scan_mounts, if_pos h] using h2
          · rcases ih (i + 1) g gs with heq | ⟨j, m, hget, hm, h1, h2, h3⟩
            · left; simpa [scan_mounts, if_neg h] using heq
            · right
              refine ⟨j + 1, m, by simpa using hget, hm, ?_, ?_, h3⟩
              · simp only [scan_mounts, if_neg h]; omega
              · simpa [scan_mounts, if_neg h] using h2

theorem scan_mounts_no_match (path : List Char) :
    ∀ (l : List (Option mnt_t)) (i g gs : Nat),
      (∀ j m, l.get? j = some (some m) → mnt_match path m = false) →
      scan_mounts path l i g gs = (g, gs) := by
  intro l
  induction l with
  | nil => intro i g gs _; simp [scan_mounts]
  | cons hd tl ih =>
      intro i g gs hno
      cases hd with
      | none =>
          simp only [scan_mounts]
          exact ih (i + 1) g gs fun j m hj => hno (j + 1) m (by simpa using hj)
      | some m0 =>
          have hm0 : mnt_match path m0 = false := hno 0 m0 (by simp)
          have hcond : ¬(mnt_match path m0 = true ∧ gs < m0.name.length) := by
            simp [hm0]
          simp only [scan_mounts, if_neg hcond]
          exact ih (i + 1) g gs fun j m hj => hno (j + 1) m (by simpa using hj)

/-- C1: for every absolute path and mount-table snapshot, if some matching
record (name a byte prefix of the path followed by `/` or end-of-string, or
name exactly `/`) has a nonempty name, the resolver returns a matching record
of maximal name length; and the two concrete resolutions of the spec hold.
(Amended: a record with empty `target_path` is never selected, see
`C1_counterexample`.) -/
theorem C1_mountpoint_longest_match :
    (∀ (mnts : List (Option mnt_t)) (path : List Char),
        mnts.length ≤ SIZE_MAX64 →
        (∃ j m, mnts.get? j = some (some m) ∧ mnt_match path m = true ∧ m.name ≠ []) →
        ∃ m lp, vfs_get_mountpoint path mnts = some (m, lp) ∧ mnt_match path m = true ∧
          ∀ j2 m2, mnts.get? j2 = some (some m2) → mnt_match path m2 = true →
            m2.name.length ≤ m.name.length) ∧
    vfs_get_mountpoint "/usr/bin/ls".toList exampleMounts
      = some (⟨"/usr".toList, 1, 11⟩, "/bin/ls".toList) ∧
    vfs_get_mountpoint "/usr".toList exampleMounts
      = some (⟨"/usr".toList, 1, 11⟩, "/".toList) := by
  refine ⟨?_, by decide, by decide⟩
  rintro mnts path hlen ⟨j, m, hget, hm, hne⟩
  have hgs1 : 1 ≤ (scan_mounts path mnts 0 SIZE_MAX64 0).2 := by
    have hb := scan_mounts_bound path mnts 0 SIZE_MAX64 0 j m hget hm
    have hml : 1 ≤ m.name.length := by
      cases hn : m.name with
      | nil => exact absurd hn hne
      | cons a l => simp [hn]
    omega
  rcases scan_mounts_provenance path mnts 0 SIZE_MAX64 0 with heq |
    ⟨j0, m0, hget0, hm0, h1, h2, _⟩
  · rw [heq] at hgs1; simp at hgs1
  · have hjlt : j0 < mnts.length := by
      have := List.get?_eq_some.mp hget0
      exact this.1
    have hgne : (scan_mounts path mnts 0 SIZE_MAX64 0).1 ≠ SIZE_MAX64 := by
      rw [h1]; omega
    refine ⟨m0, vfs_local_path path (scan_mounts path mnts 0 SIZE_MAX64 0).2, ?_, hm0, ?_⟩
    · rw [vfs_get_mountpoint, if_pos hgne, h1]
      simp only [Nat.zero_add]
      rw [hget0]
      rfl
    · intro j2 m2 hget2 hm2
      have := scan_mounts_bound path mnts 0 SIZE_MAX64 0 j2 m2 hget2 hm2
      omega

/-- C1 counterexample: with the single mount record whose `target_path` is the
empty string, the path `"/a"` matches it (the empty string is a prefix whose
next character is `/`), it is the longest such match, yet the resolver returns
null: `len > guess_size` with `guess_size = 0` never selects a length-0 name. -/
theorem C1_counterexample :
    mnt_match ['/', 'a'] ⟨[], 0, 0⟩ = true ∧
    vfs_get_mountpoint ['/', 'a'] [some ⟨[], 0, 0⟩] = none := by
  constructor
  · decide
  · decide

/-- C1 witness: the general statement applied to the spec's example table and
the path `"/usr/bin/ls"`. -/
theorem C1_mountpoint_longest_match_witness :
    ∃ m lp, vfs_get_mountpoint "/usr/bin/ls".toList exampleMounts = some (m, lp) ∧
      mnt_match "/usr/bin/ls".toList m = true ∧
      ∀ j2 m2, exampleMounts.get? j2 = some (some m2) →
        mnt_match "/usr/bin/ls".toList m2 = true → m2.name.length ≤ m.name.length :=
  C1_mountpoint_longest_match.1 exampleMounts "/usr/bin/ls".toList (by decide)
    ⟨1, ⟨"/usr".toList, 1, 11⟩, by decide, by decide, by decide⟩

/-- C10 (amended): when a non-empty snapshot contains no matching record,
`guess` is still `(size_t)-1`, so the read `mnts[guess]` performed before the
no-match check is OUT of bounds (the `Option`-returning indexing yields
`none`); the function still returns null.  The claim's in-bounds assertion is
refuted by `C10_counterexample`. -/
theorem C10_guess_read_oob :
    ∀ (mnts : List (Option mnt_t)) (path : List Char),
      mnts ≠ [] → mnts.length ≤ SIZE_MAX64 →
      (∀ j m, mnts.get? j = some (some m) → mnt_match path m = false) →
      vfs_guess_read path mnts = none ∧ vfs_get_mountpoint path mnts = none := by
  intro mnts path _ hlen hno
  have hscan : scan_mounts path mnts 0 SIZE_MAX64 0 = (SIZE_MAX64, 0) :=
    scan_mounts_no_match path mnts 0 SIZE_MAX64 0 hno
  constructor
  · rw [vfs_guess_read, hscan]
    exact List.get?_eq_none.mpr (by omega)
  · rw [vfs_get_mountpoint, hscan]
    simp

/-- C10 counterexample: with the single mount `"/usr"` and the path `"/etc"`
(no record matches), the read `mnts[guess]` takes the out-of-bounds branch
(`none`), contradicting the claim that this access stays within bounds. -/
theorem C10_counterexample :
    vfs_guess_read "/etc".toList [some ⟨"/usr".toList, 1, 11⟩] = none ∧
    vfs_get_mountpoint "/etc".toList [some ⟨"/usr".toList, 1, 11⟩] = none := by
  constructor
  · decide
  · decide

/-- C10 witness: the amended statement applied to the snapshot `["/usr"]` and
the path `"/etc"`. -/
theorem C10_guess_read_oob_witness :
    vfs_guess_read "/etc".toList [some ⟨"/usr".toList, 1, 11⟩] = none ∧
    vfs_get_mountpoint "/etc".toList [some ⟨"/usr".toList, 1, 11⟩] = none :=
  C10_guess_read_oob [some ⟨"/usr".toList, 1, 11⟩] "/etc".toList (by decide) (by decide)
    (by
      intro j m hj
      cases j with
      | zero =>
          simp at hj
          subst hj
          decide
      | succ n => simp at hj)

/-- C9: evaluating `vfs_get_mountpoint` on the path where `ht_dump` yields no
snapshot (`NULL`): the function returns `NULL` with `mountpoints_lock` still
held (second component `true`), contradicting the claim that the lock is
released on every execution path. -/
theorem C9_lock_leaked_on_null_dump :
    vfs_get_mountpoint_sc none ['/', 'a'] = (none, true) := rfl

/-! ## VFS handle table: `vfs_close` (`vfs.c` lines 228-236)

The handle table (`dynarray_new(struct vfs_handle_t, vfs_handles)`) is a
sparse index-addressed vector, embedded as `List (Option vfs_handle_t)`;
`dynarray_remove` empties the slot.  The driver dispatch `fd_copy.fs->close`
is passed in as a function from the fs tag and internal fd. -/

/-- `struct vfs_handle_t`: the fs is identified by its tag. -/
structure vfs_handle_t where
  fs : Nat
  intern_fd : Int
deriving DecidableEq

/-- `vfs_close`: copy the handle, unref, `dynarray_remove` the slot, then call
the driver's close; return `-1` iff the driver's close returned nonzero.
`none` models the source dereferencing an absent handle. -/
def vfs_close (closeFn : Nat → Int → Int) (tbl : List (Option vfs_handle_t)) (fd : Nat) :
    Option (Int × List (Option vfs_handle_t)) :=
  match tbl.get? fd with
  | some (some h) =>
      let tbl2 := tbl.set fd none
      if closeFn h.fs h.intern_fd ≠ 0 then some (-1, tbl2) else some (0, tbl2)
  | _ => none

/-- C3 (amended): for every open handle, `close` removes the handle-table
entry unconditionally, BEFORE invoking the driver's close; driver failure
yields `-1` with the entry already removed (not retained), success yields `0`.
The claim's retain-on-failure behaviour is refuted by `C3_counterexample`. -/
theorem C3_close_removes_before_driver :
    ∀ (closeFn : Nat → Int → Int) (tbl : List (Option vfs_handle_t)) (fd : Nat)
      (h : vfs_handle_t),
      tbl.get? fd = some (some h) →
      ∃ r, vfs_close closeFn tbl fd = some (r, tbl.set fd none) ∧
        (closeFn h.fs h.intern_fd ≠ 0 → r = -1) ∧
        (closeFn h.fs h.intern_fd = 0 → r = 0) := by
  intro closeFn tbl fd h hget
  rw [vfs_close, hget]
  dsimp only
  by_cases hc : closeFn h.fs h.intern_fd ≠ 0
  · exact ⟨-1, by rw [if_pos hc], fun _ => rfl, fun h0 => absurd h0 hc⟩
  · exact ⟨0, by rw [if_neg hc], fun hne => absurd (by omega : closeFn h.fs h.intern_fd = 0) hne,
      fun _ => rfl⟩

/-- C3 counterexample: a one-entry table whose driver close fails: `vfs_close`
returns `-1` but the entry is gone (`[none]`), not retained. -/
theorem C3_counterexample :
    vfs_close (fun _ _ => 1) [some ⟨0, 7⟩] 0 = some (-1, [none]) ∧
    ([none] : List (Option vfs_handle_t)) ≠ [some ⟨0, 7⟩] := by
  constructor
  · rfl
  · decide

/-- C3 witness: the amended statement applied to a concrete one-entry table
with a failing driver close. -/
theorem C3_close_removes_before_driver_witness :
    ∃ r, vfs_close (fun _ _ => 2) [some ⟨3, 8⟩] 0 = some (r, [some ⟨3, 8⟩].set 0 none) ∧
      ((fun (_ : Nat) (_ : Int) => (2 : Int)) 3 8 ≠ 0 → r = -1) ∧
      ((fun (_ : Nat) (_ : Int) => (2 : Int)) 3 8 = 0 → r = 0) :=
  C3_close_removes_before_driver (fun _ _ => 2) [some ⟨3, 8⟩] 0 ⟨3, 8⟩ rfl

/-! ## Filesystem registry: `vfs_install_fs` (`vfs.c` lines 172-187)

Modelled from the spec: `struct fs_t` is declared in `fd/vfs/vfs.h`, which is
not part of the sources; per spec section 3 it is a name plus a table of
operation slots, and `vfs_install_fs` scans the operations region for zero
(unset) slots, patching each with the sentinel `vfs_call_invalid`.  A slot is
`Option (Int → Int × Nat)`: an operation takes its (abstracted) argument and
returns the result together with the value of `errno` it leaves. -/

/-- The errno code `ENOSYS` (symbolic value). -/
def ENOSYS : Nat := 38

/-- `vfs_call_invalid`: sets `errno = ENOSYS` and returns `-1`. -/
def vfs_call_invalid : Int → Int × Nat := fun _ => (-1, ENOSYS)

/-- `struct fs_t`, modelled from the spec: type name plus operation slots. -/
structure fs_t where
  name : List Char
  ops : List (Option (Int → Int × Nat))

/-- `vfs_install_fs`: every unset (null) operation slot is replaced by
`vfs_call_invalid` before the driver is inserted into the registry. -/
def vfs_install_fs (fs : fs_t) : fs_t :=
  { fs with
    ops := fs.ops.map (fun slot =>
      match slot with
      | none => some vfs_call_invalid
      | some f => some f) }

/-- C7: every operation slot that was unset at registration time is replaced
by a sentinel, so invoking that operation afterwards returns `-1` with
`errno = ENOSYS`. -/
theorem C7_install_fs_sentinel :
    ∀ (fs : fs_t) (i : Nat) (a : Int),
      fs.ops.get? i = some none →
      ∃ g, (vfs_install_fs fs).ops.get? i = some (some g) ∧ g a = (-1, ENOSYS) := by
  intro fs i a hget
  refine ⟨vfs_call_invalid, ?_, rfl⟩
  simp only [vfs_install_fs, List.get?_map, hget]
  rfl

/-- C7 witness: a driver registered with only `open`/`close` set (slots 0 and
1) returns `-1`/`ENOSYS` when its third operation is invoked. -/
theorem C7_install_fs_sentinel_witness :
    ∃ g, (vfs_install_fs ⟨"echfs".toList,
        [some (fun _ => (0, 0)), some (fun _ => (0, 0)), none]⟩).ops.get? 2
      = some (some g) ∧ g 5 = (-1, ENOSYS) :=
  C7_install_fs_sentinel ⟨"echfs".toList,
    [some (fun _ => (0, 0)), some (fun _ => (0, 0)), none]⟩ 2 5 rfl

/-! ## `open` (`vfs.c` lines 264-291)

External collaborators are passed in: the driver's `open`, the result of
`dynarray_add` (`-1` models a failed installation into the handle table) and
`fd_create` (which receives the `intern_fd` field of the
`file_descriptor_t` built by `open`, i.e. the value returned by
`dynarray_add`).  The second component of the result collects the internal
fds on which the source invokes the driver's `close` during `open`: the
source contains no such call on any path. -/

/-- `open`: resolve the mountpoint, call the driver's open, install the handle
(`dynarray_add`, result unchecked by the source), build a descriptor whose
`intern_fd` is the `dynarray_add` result, and return `fd_create` of it. -/
def open_vfs (mountpoint : Option (mnt_t × List Char)) (fs_open : List Char → Int → Int → Int)
    (mode : Int) (dynarray_add : Int) (fd_create : Int → Int) : Int × List Int :=
  match mountpoint with
  | none => (-1, [])
  | some (m, loc_path) =>
      let intern_fd := fs_open loc_path mode m.magic
      if intern_fd = -1 then (-1, [])
      else (fd_create dynarray_add, [])

/-- C8: evaluating `open` at the failing input: the driver's open succeeds
(returns internal fd `5`), installing into the handle table fails
(`dynarray_add = -1`), yet `open` closes no internal fd (empty close list) and
returns `fd_create` applied to `-1` (here `9`) instead of closing the internal
fd and returning `-1` — the add result is never checked. -/
theorem C8_open_leaks_intern_fd :
    open_vfs (some (⟨"/".toList, 0, 10⟩, "/x".toList)) (fun _ _ _ => 5) 0 (-1)
      (fun ifd => if ifd = -1 then 9 else 3) = (9, []) := rfl

/-! ## Keyboard line discipline (`kbd.c`)

The fixed-size buffers `kbd_buf[2048]` (raw line under edit) and
`big_buf[65536]` (committed lines) are embedded as total functions
`Nat → Char` together with their indices; the arrays are zero-initialized
(they are static kernel objects).  `tty_putchar` output is collected in a
list.  Blocking (`yield(10)` spin loops) returns `none` in this sequential
model: with no concurrent handler activity the loop never ends. -/

def MAX_CODE : Nat := 0x57
def KBD_BUF_SIZE : Nat := 2048
def BIG_BUF_SIZE : Nat := 65536

/-- Scancode translation table, no modifier active. -/
def ascii_nomod : List Char :=
  ['\x00', '?', '1', '2', '3', '4', '5', '6', '7', '8', '9', '0', '-', '=', '\x08', '\t',
   'q', 'w', 'e', 'r', 't', 'y', 'u', 'i', 'o', 'p', '[', ']', '\n', '\x00', 'a', 's',
   'd', 'f', 'g', 'h', 'j', 'k', 'l', ';', Char.ofNat 39, Char.ofNat 96, '\x00',
   Char.ofNat 92, 'z', 'x', 'c', 'v',
   'b', 'n', 'm', ',', '.', '/', '\x00', '\x00', '\x00', ' ']

/-- Scancode translation table, caps-lock active. -/
def ascii_capslock : List Char :=
  ['\x00', '?', '1', '2', '3', '4', '5', '6', '7', '8', '9', '0', '-', '=', '\x08', '\t',
   'Q', 'W', 'E', 'R', 'T', 'Y', 'U', 'I', 'O', 'P', '[', ']', '\n', '\x00', 'A', 'S',
   'D', 'F', 'G', 'H', 'J', 'K', 'L', ';', Char.ofNat 39, Char.ofNat 96, '\x00',
   Char.ofNat 92, 'Z', 'X', 'C', 'V',
   'B', 'N', 'M', ',', '.', '/', '\x00', '\x00', '\x00', ' ']

/-- Scancode translation table, shift active. -/
def ascii_shift : List Char :=
  ['\x00', '?', '!', '@', '#', '$', '%', '^', '&', '*', '(', ')', '_', '+', '\x08', '\t',
   'Q', 'W', 'E', 'R', 'T', 'Y', 'U', 'I', 'O', 'P', Char.ofNat 123, Char.ofNat 125,
   '\n', '\x00', 'A', 'S',
   'D', 'F', 'G', 'H', 'J', 'K', 'L', ':', Char.ofNat 34, '~', '\x00', '|', 'Z', 'X', 'C', 'V',
   'B', 'N', 'M', '<', '>', '?', '\x00', '\x00', '\x00', ' ']

/-- Scancode translation table, shift and caps-lock active. -/
def ascii_shift_capslock : List Char :=
  ['\x00', '?', '!', '@', '#', '$', '%', '^', '&', '*', '(', ')', '_', '+', '\x08', '\t',
   'q', 'w', 'e', 'r', 't', 'y', 'u', 'i', 'o', 'p', Char.ofNat 123, Char.ofNat 125,
   '\n', '\x00', 'a', 's',
   'd', 'f', 'g', 'h', 'j', 'k', 'l', ':', Char.ofNat 34, '~', '\x00', '|', 'z', 'x', 'c', 'v',
   'b', 'n', 'm', '<', '>', '?', '\x00', '\x00', '\x00', ' ']

/-- The `termios` flags honoured by the keyboard code. -/
structure Termios where
  icanon : Bool
  echo : Bool

/-- The keyboard globals: both buffers with their indices, the modifier
latches, and the stream of characters echoed through `tty_putchar`. -/
structure KbdState where
  kbd_buf : Nat → Char
  kbd_buf_i : Nat
  big_buf : Nat → Char
  big_buf_i : Nat
  capslock : Bool
  shift : Bool
  ctrl : Bool
  tty : List Char

/-- The table lookup of `kbd_handler` for a non-modifier scancode, selected by
`(capslock_active, shift_active)`.  Indices `0x3a..0x56` read past the
58-entry tables in the source (undefined); the zero-initialized model yields
`'\x00'` there. -/
def kbd_table_char (caps shift : Bool) (b : Nat) : Char :=
  (if !caps && !shift then ascii_nomod
   else if !caps && shift then ascii_shift
   else if caps && shift then ascii_shift_capslock
   else ascii_capslock).getD b '\x00'

/-- The decoded character of a scancode, `none` when the byte is swallowed
(ctrl-C hook), is a modifier transition, or is `>= MAX_CODE`. -/
def kbd_decode (b : Nat) (s : KbdState) : Option Char :=
  if s.ctrl ∧ b = 0x2e then none
  else if b = 0x3a then none
  else if b = 0x2a ∨ b = 0x36 ∨ b = 0xaa ∨ b = 0xb6 then none
  else if b = 0x1d ∨ b = 0x9d then none
  else if b < MAX_CODE then some (kbd_table_char s.capslock s.shift b)
  else none

/-- The `regular_character` tail of `kbd_handler`: drop when the raw buffer is
full, else append and echo if `ECHO`. -/
def kbd_regular (c : Char) (tm : Termios) (s : KbdState) : KbdState :=
  if s.kbd_buf_i = KBD_BUF_SIZE then s
  else
    let s1 := { s with kbd_buf := fun j => if j = s.kbd_buf_i then c else s.kbd_buf j,
                       kbd_buf_i := s.kbd_buf_i + 1 }
    if tm.echo then { s1 with tty := s1.tty ++ [c] } else s1

/-- The commit loop of the `'\n'` case: copy `src 0 .. src (n-1)` into the
big buffer, stopping when `big_buf_i` reaches `BIG_BUF_SIZE`. -/
def copyN (src : Nat → Char) : Nat → Nat → (Nat → Char) → Nat → (Nat → Char) × Nat
  | _, 0, big, bigi => (big, bigi)
  | i, n + 1, big, bigi =>
      if bigi = BIG_BUF_SIZE then (big, bigi)
      else copyN src (i + 1) n (fun j => if j = bigi then src i else big j) (bigi + 1)

/-- `kbd_handler(input_byte)`: ctrl-C swallow, modifier toggles, table lookup,
then the `switch (c)` on `'\n'` (canonical commit), `'\b'` (canonical
line-edit pop) and the `regular_character` tail.  Note that in the canonical
cases a full raw buffer (for `'\n'`) and an empty raw buffer (for `'\b'`)
leave the `switch` via `break`, which in the source falls THROUGH to
`regular_character`. -/
def kbd_handler (b : Nat) (tm : Termios) (s : KbdState) : KbdState :=
  if s.ctrl ∧ b = 0x2e then s
  else if b = 0x3a then { s with capslock := !s.capslock }
  else if b = 0x2a ∨ b = 0x36 ∨ b = 0xaa ∨ b = 0xb6 then { s with shift := !s.shift }
  else if b = 0x1d ∨ b = 0x9d then { s with ctrl := !s.ctrl }
  else if b < MAX_CODE then
    let c := kbd_table_char s.capslock s.shift b
    if c = '\n' ∧ tm.icanon then
      if s.kbd_buf_i = KBD_BUF_SIZE then kbd_regular c tm s
      else
        let s1 := { s with kbd_buf := fun j => if j = s.kbd_buf_i then c else s.kbd_buf j,
                           kbd_buf_i := s.kbd_buf_i + 1 }
        let s2 := if tm.echo then { s1 with tty := s1.tty ++ [c] } else s1
        let r := copyN s2.kbd_buf 0 s2.kbd_buf_i s2.big_buf s2.big_buf_i
        { s2 with big_buf := r.1, big_buf_i := r.2, kbd_buf_i := 0 }
    else if c = '\x08' ∧ tm.icanon then
      if s.kbd_buf_i = 0 then kbd_regular c tm s
      else
        let s1 := { s with kbd_buf := fun j => if j = s.kbd_buf_i - 1 then '\x00'
                                               else s.kbd_buf j,
                           kbd_buf_i := s.kbd_buf_i - 1 }
        if tm.echo then { s1 with tty := s1.tty ++ ['\x08', ' ', '\x08'] } else s1
    else kbd_regular c tm s
  else s

/-- The canonical-mode read loop of `kbd_read`: up to `count` bytes from the
head of the big buffer, shifting it down; blocks (in this sequential model:
`none`) when the buffer is empty and no byte has been delivered yet; returns
early once the buffer drains after at least one byte was copied. -/
def kbd_read_loop : Nat → (Nat → Char) → Nat → Bool → Option (List Char × ((Nat → Char) × Nat))
  | 0, big, bigi, _ => some ([], (big, bigi))
  | n + 1, big, bigi, wait =>
      if bigi ≠ 0 then
        match kbd_read_loop n (fun j => if j < bigi - 1 then big (j + 1) else big j)
            (bigi - 1) false with
        | some (bs, st) => some (big 0 :: bs, st)
        | none => none
      else if wait then none
      else some ([], (big, bigi))

/-- `kbd_read(buf, count)`: in non-canonical mode (`!ICANON`) it spin-waits
until the raw buffer is nonempty (sequentially: `none` when empty), then
drains it entirely — zeroing each drained byte, resetting `kbd_buf_i`,
returning the drained bytes irrespective of `count`.  In canonical mode it
consumes the big buffer through `kbd_read_loop`. -/
def kbd_read (count : Nat) (tm : Termios) (s : KbdState) : Option (List Char × KbdState) :=
  if ¬ tm.icanon then
    if s.kbd_buf_i = 0 then none
    else some ((List.range s.kbd_buf_i).map s.kbd_buf,
      { s with kbd_buf := fun j => if j < s.kbd_buf_i then '\x00' else s.kbd_buf j,
               kbd_buf_i := 0 })
  else
    match kbd_read_loop count s.big_buf s.big_buf_i true with
    | some (bs, st) => some (bs, { s with big_buf := st.1, big_buf_i := st.2 })
    | none => none

/-- The all-zero keyboard state at boot. -/
def kbdInit : KbdState :=
  ⟨fun _ => '\x00', 0, fun _ => '\x00', 0, false, false, false, []⟩

/-- `termios` with `ICANON|ECHO`, the configuration of the spec's scenarios. -/
def tmCanonEcho : Termios := ⟨true, true⟩

theorem copyN_spec :
    ∀ (n i : Nat) (src big : Nat → Char) (bigi : Nat),
      bigi ≤ BIG_BUF_SIZE →
      (copyN src i n big bigi).2 = bigi + min n (BIG_BUF_SIZE - bigi) ∧
      (∀ j, j < min n (BIG_BUF_SIZE - bigi) →
        (copyN src i n big bigi).1 (bigi + j) = src (i + j)) ∧
      (∀ k, k < bigi → (copyN src i n big bigi).1 k = big k) := by
  intro n
  induction n with
  | zero => intro i src big bigi _; simp [copyN]
  | succ m ih =>
      intro i src big bigi h
      by_cases hb : bigi = BIG_BUF_SIZE
      · subst hb
        simp [copyN]
      · have hlt : bigi < BIG_BUF_SIZE := lt_of_le_of_ne h hb
        simp only [copyN, if_neg hb]
        obtain ⟨ih1, ih2, ih3⟩ :=
          ih (i + 1) src (fun j => if j = bigi then src i else big j) (bigi + 1) (by omega)
        refine ⟨?_, ?_, ?_⟩
        · rw [ih1]; omega
        · intro j hj
          cases j with
          | zero =>
              have h0 := ih3 bigi (by omega)
              simpa using h0
          | succ j2 =>
              have h2 := ih2 j2 (by omega)
              have e1 : bigi + (j2 + 1) = bigi + 1 + j2 := by omega
              have e2 : i + (j2 + 1) = i + 1 + j2 := by omega
              rw [e1, e2]
              exact h2
        · intro k hk
          have h3 := ih3 k (by omega)
          rw [h3]
          simp [Nat.ne_of_lt hk]

theorem kbd_decode_char (b : Nat) (s : KbdState)
    (h1 : ¬(s.ctrl ∧ b = 0x2e)) (h2 : ¬b = 0x3a)
    (h3 : ¬(b = 0x2a ∨ b = 0x36 ∨ b = 0xaa ∨ b = 0xb6))
    (h4 : ¬(b = 0x1d ∨ b = 0x9d)) (h5 : b < MAX_CODE) :
    kbd_decode b s = some (kbd_table_char s.capslock s.shift b) := by
  rw [kbd_decode, if_neg h1, if_neg h2, if_neg h3, if_neg h4, if_pos h5]

/-- State after feeding the scancodes of `h` (0x23) and `i` (0x17) from boot,
canonical mode with echo. -/
def kbdHI : KbdState := kbd_handler 0x17 tmCanonEcho (kbd_handler 0x23 tmCanonEcho kbdInit)

/-- State after feeding the scancodes of `"hi\n"` (0x23, 0x17, 0x1c). -/
def kbdHiNl : KbdState := kbd_handler 0x1c tmCanonEcho kbdHI

/-- A canonical-mode state whose raw buffer is full. -/
def kbdFull : KbdState :=
  ⟨fun _ => 'a', KBD_BUF_SIZE, fun _ => '\x00', 0, false, false, false, []⟩

/-- C4: evaluating `kbd_handler` at the failing input — canonical mode,
`raw_i == 0`, scancode `0x0e` (backspace): the `break` taken when the raw
buffer is empty falls through to `regular_character`, so the handler APPENDS
the literal `'\b'` (0x08) to the raw buffer (and echoes it), instead of
dropping it and leaving the buffers unchanged as the claim states. -/
theorem C4_backspace_on_empty_appends :
    (kbd_handler 0x0e tmCanonEcho kbdInit).kbd_buf_i = 1 ∧
    (kbd_handler 0x0e tmCanonEcho kbdInit).kbd_buf 0 = '\x08' ∧
    (kbd_handler 0x0e tmCanonEcho kbdInit).tty = ['\x08'] := by
  refine ⟨by decide, by decide, by decide⟩

/-- C5 (amended): in canonical mode, (i) a decoded `'\n'` arriving while
`raw_i < KBD_BUF_SIZE` (and with the `line_i ≤ BIG_BUF_SIZE` invariant) is
appended to the raw buffer, then `raw_buf[0..raw_i]` is copied to the big
buffer clamped to `BIG_BUF_SIZE` and `raw_i` is reset to `0`; (ii) any input
byte not decoding to `'\n'` leaves the big buffer untouched (the commit is the
only path by which input becomes readable); (iii) from empty buffers, after
the scancodes of `"hi\n"`: `line_i = 3`, `line_buf[0..3] = "hi\n"`,
`raw_i = 0`, and `kbd_read(buf, 8)` returns the 3 bytes leaving `line_i = 0`.
(A `'\n'` arriving with the raw buffer full is dropped: `C5_counterexample`.) -/
theorem C5_newline_commit :
    (∀ (b : Nat) (tm : Termios) (s : KbdState),
        tm.icanon = true → kbd_decode b s = some '\n' →
        s.kbd_buf_i < KBD_BUF_SIZE → s.big_buf_i ≤ BIG_BUF_SIZE →
        (kbd_handler b tm s).kbd_buf_i = 0 ∧
        (kbd_handler b tm s).kbd_buf s.kbd_buf_i = '\n' ∧
        (kbd_handler b tm s).big_buf_i
          = s.big_buf_i + min (s.kbd_buf_i + 1) (BIG_BUF_SIZE - s.big_buf_i) ∧
        (∀ j, j < min (s.kbd_buf_i + 1) (BIG_BUF_SIZE - s.big_buf_i) →
          (kbd_handler b tm s).big_buf (s.big_buf_i + j)
            = (if j = s.kbd_buf_i then '\n' else s.kbd_buf j)) ∧
        (∀ k, k < s.big_buf_i → (kbd_handler b tm s).big_buf k = s.big_buf k)) ∧
    (∀ (b : Nat) (tm : Termios) (s : KbdState),
        tm.icanon = true → kbd_decode b s ≠ some '\n' →
        (kbd_handler b tm s).big_buf = s.big_buf ∧
        (kbd_handler b tm s).big_buf_i = s.big_buf_i) ∧
    (kbdHiNl.big_buf_i = 3 ∧ (List.range 3).map kbdHiNl.big_buf = ['h', 'i', '\n'] ∧
     kbdHiNl.kbd_buf_i = 0 ∧
     (kbd_read 8 tmCanonEcho kbdHiNl).map (fun x => (x.1, x.2.big_buf_i))
       = some (['h', 'i', '\n'], 0)) := by
  refine ⟨?_, ?_, by decide, by decide, by decide, by decide⟩
  · intro b tm s hic hdec hraw hbig
    rw [kbd_decode] at hdec
    split_ifs at hdec with h1 h2 h3 h4 h5
    have hc : kbd_table_char s.capslock s.shift b = '\n' := by injection hdec
    rw [kbd_handler, if_neg h1, if_neg h2, if_neg h3, if_neg h4, if_pos h5]
    dsimp only
    rw [hc, if_pos ⟨rfl, hic⟩, if_neg (by omega : ¬s.kbd_buf_i = KBD_BUF_SIZE)]
    dsimp only
    set s1buf : Nat → Char := fun j => if j = s.kbd_buf_i then '\n' else s.kbd_buf j with hs1
    by_cases he : tm.echo
    · rw [if_pos he]
      obtain ⟨c1, c2, c3⟩ := copyN_spec (s.kbd_buf_i + 1) 0 s1buf s.big_buf s.big_buf_i hbig
      refine ⟨rfl, by simp [hs1], c1, ?_, c3⟩
      intro j hj
      have := c2 j hj
      simpa using this
    · rw [if_neg he]
      obtain ⟨c1, c2, c3⟩ := copyN_spec (s.kbd_buf_i + 1) 0 s1buf s.big_buf s.big_buf_i hbig
      refine ⟨rfl, by simp [hs1], c1, ?_, c3⟩
      intro j hj
      have := c2 j hj
      simpa using this
  · intro b tm s hic hdec
    by_cases h1 : s.ctrl ∧ b = 0x2e
    · rw [kbd_handler, if_pos h1]; exact ⟨rfl, rfl⟩
    by_cases h2 : b = 0x3a
    · rw [kbd_handler, if_neg h1, if_pos h2]; exact ⟨rfl, rfl⟩
    by_cases h3 : b = 0x2a ∨ b = 0x36 ∨ b = 0xaa ∨ b = 0xb6
    · rw [kbd_handler, if_neg h1, if_neg h2, if_pos h3]; exact ⟨rfl, rfl⟩
    by_cases h4 : b = 0x1d ∨ b = 0x9d
    · rw [kbd_handler, if_neg h1, if_neg h2, if_neg h3, if_pos h4]; exact ⟨rfl, rfl⟩
    by_cases h5 : b < MAX_CODE
    case neg =>
      rw [kbd_handler, if_neg h1, if_neg h2, if_neg h3, if_neg h4, if_neg h5]
      exact ⟨rfl, rfl⟩
    rw [kbd_handler, if_neg h1, if_neg h2, if_neg h3, if_neg h4, if_pos h5]
    dsimp only
    have hdc := kbd_decode_char b s h1 h2 h3 h4 h5
    have hn : ¬kbd_table_char s.capslock s.shift b = '\n' := by
      intro hn
      exact hdec (by rw [hdc, hn])
    rw [if_neg (by simp [hn] : ¬(kbd_table_char s.capslock s.shift b = '\n' ∧ tm.icanon = true))]
    by_cases hb : kbd_table_char s.capslock s.shift b = '\x08'
    · rw [if_pos ⟨hb, hic⟩]
      by_cases hz : s.kbd_buf_i = 0
      · rw [if_pos hz, kbd_regular]
        by_cases hf : s.kbd_buf_i = KBD_BUF_SIZE
        · rw [if_pos hf]; exact ⟨rfl, rfl⟩
        · rw [if_neg hf]
          try dsimp only
          by_cases he : tm.echo
          · rw [if_pos he]; exact ⟨rfl, rfl⟩
          · rw [if_neg he]; exact ⟨rfl, rfl⟩
      · rw [if_neg hz]
        try dsimp only
        by_cases he : tm.echo
        · rw [if_pos he]; exact ⟨rfl, rfl⟩
        · rw [if_neg he]; exact ⟨rfl, rfl⟩
    · rw [if_neg (by simp [hb] : ¬(kbd_table_char s.capslock s.shift b = '\x08' ∧ tm.icanon = true)),
        kbd_regular]
      by_cases hf : s.kbd_buf_i = KBD_BUF_SIZE
      · rw [if_pos hf]; exact ⟨rfl, rfl⟩
      · rw [if_neg hf]
        try dsimp only
        by_cases he : tm.echo
        · rw [if_pos he]; exact ⟨rfl, rfl⟩
        · rw [if_neg he]; exact ⟨rfl, rfl⟩

/-- C5 counterexample: a decoded `'\n'` arriving with the raw buffer full
(`raw_i = KBD_BUF_SIZE`) in canonical mode is dropped entirely: nothing is
appended, nothing is committed, `raw_i` is not reset — contradicting the
claim's unconditional append-and-commit. -/
theorem C5_counterexample :
    tmCanonEcho.icanon = true ∧ kbd_decode 0x1c kbdFull = some '\n' ∧
    (kbd_handler 0x1c tmCanonEcho kbdFull).kbd_buf_i = KBD_BUF_SIZE ∧
    (kbd_handler 0x1c tmCanonEcho kbdFull).big_buf_i = 0 := by
  refine ⟨rfl, by decide, by decide, by decide⟩

/-- C5 witness: the commit statement applied to the concrete state reached
after typing `h`, `i`, with the `'\n'` scancode `0x1c`. -/
theorem C5_newline_commit_witness :
    (kbd_handler 0x1c tmCanonEcho kbdHI).kbd_buf_i = 0 ∧
    (kbd_handler 0x1c tmCanonEcho kbdHI).kbd_buf kbdHI.kbd_buf_i = '\n' ∧
    (kbd_handler 0x1c tmCanonEcho kbdHI).big_buf_i
      = kbdHI.big_buf_i + min (kbdHI.kbd_buf_i + 1) (BIG_BUF_SIZE - kbdHI.big_buf_i) ∧
    (∀ j, j < min (kbdHI.kbd_buf_i + 1) (BIG_BUF_SIZE - kbdHI.big_buf_i) →
      (kbd_handler 0x1c tmCanonEcho kbdHI).big_buf (kbdHI.big_buf_i + j)
        = (if j = kbdHI.kbd_buf_i then '\n' else kbdHI.kbd_buf j)) ∧
    (∀ k, k < kbdHI.big_buf_i →
      (kbd_handler 0x1c tmCanonEcho kbdHI).big_buf k = kbdHI.big_buf k) :=
  C5_newline_commit.1 0x1c tmCanonEcho kbdHI rfl (by decide) (by decide) (by decide)

/-- C6: in non-canonical mode, whenever the reader proceeds (`raw_i > 0`),
`kbd_read` copies all `raw_i` bytes of the raw buffer into the caller's
buffer, zeroes each drained byte, resets `raw_i` to `0`, and returns the
number of bytes drained — for every value of `count` (the result does not
depend on it). -/
theorem C6_noncanon_read_drains_all :
    ∀ (count : Nat) (tm : Termios) (s : KbdState),
      tm.icanon = false → s.kbd_buf_i ≠ 0 →
      ∃ s2, kbd_read count tm s = some ((List.range s.kbd_buf_i).map s.kbd_buf, s2) ∧
        ((List.range s.kbd_buf_i).map s.kbd_buf).length = s.kbd_buf_i ∧
        s2.kbd_buf_i = 0 ∧
        (∀ j, j < s.kbd_buf_i → s2.kbd_buf j = '\x00') ∧
        (∀ j, s.kbd_buf_i ≤ j → s2.kbd_buf j = s.kbd_buf j) ∧
        s2.big_buf = s.big_buf ∧ s2.big_buf_i = s.big_buf_i ∧
        (∀ count2, kbd_read count2 tm s = kbd_read count tm s) := by
  intro count tm s hic hne
  rw [kbd_read, if_pos (by simp [hic]), if_neg hne]
  refine ⟨_, rfl, by simp, rfl, ?_, ?_, rfl, rfl, ?_⟩
  · intro j hj
    simp [hj]
  · intro j hj
    simp [Nat.not_lt.mpr hj]
  · intro count2
    rw [kbd_read, if_pos (by simp [hic]), if_neg hne]

/-- A non-canonical state holding two raw bytes (`i`, `h`). -/
def kbdRawIH : KbdState := kbd_handler 0x23 ⟨false, false⟩ (kbd_handler 0x17 ⟨false, false⟩ kbdInit)

/-- C6 witness: the drain statement applied to the two-byte raw state with
`count = 1` (the count is ignored: both bytes are returned). -/
theorem C6_noncanon_read_drains_all_witness :
    ∃ s2, kbd_read 1 ⟨false, false⟩ kbdRawIH
        = some ((List.range kbdRawIH.kbd_buf_i).map kbdRawIH.kbd_buf, s2) ∧
      ((List.range kbdRawIH.kbd_buf_i).map kbdRawIH.kbd_buf).length = kbdRawIH.kbd_buf_i ∧
      s2.kbd_buf_i = 0 ∧
      (∀ j, j < kbdRawIH.kbd_buf_i → s2.kbd_buf j = '\x00') ∧
      (∀ j, kbdRawIH.kbd_buf_i ≤ j → s2.kbd_buf j = kbdRawIH.kbd_buf j) ∧
      s2.big_buf = kbdRawIH.big_buf ∧ s2.big_buf_i = kbdRawIH.big_buf_i ∧
      (∀ count2, kbd_read count2 ⟨false, false⟩ kbdRawIH = kbd_read 1 ⟨false, false⟩ kbdRawIH) :=
  C6_noncanon_read_drains_all 1 ⟨false, false⟩ kbdRawIH rfl (by decide)

/-! ## Path normalizer (`vfs.c`, `vfs_get_absolute_path`)

The output buffer is embedded as the list of characters written so far (the
write cursor `path_ptr` is its length); a read at or beyond the cursor — the
source's `while (*path_ptr != '/') path_ptr--` starts at the cursor, whose
cell holds either a previously written terminator or a byte the function
never wrote — yields `'\x00'` (zero-initialized buffer).  The control flow
(`first_run`, the `switch`, `term`) is translated into a two-mode step
function structurally recursive on the remaining input: mode `true` is the
`first_run` entry point (just after a separator), mode `false` is the plain
`switch` (mid-segment).  Sequences of checks follow the source order:
exact `"."`/`"./"`/`".."`/`"../"` (terminating), then prefix `"../"` and
`"./"`, then the separator-insertion and default copy. -/

/-- The rewind loop of the `..` cases: `while (*path_ptr != '/') path_ptr--`.
Reading at `p` uses `getD _ p '\x00'`.  (At `p = 0` the source would inspect
`out[0]`; it is `'/'` in every reachable state, and the following bump to 1
makes the result agree.) -/
def rewind (out : List Char) : Nat → Nat
  | 0 => 0
  | p + 1 => if out.getD (p + 1) '\x00' = '/' then p + 1 else rewind out p

/-- Rewind from the cursor plus the `if (path_ptr == orig_ptr) path_ptr++;`
guard of both `..` branches. -/
def popPtr (out : List Char) : Nat :=
  let p := rewind out out.length
  if p = 0 then 1 else p

/-- The `term` label with the cursor at `p`: strip one trailing `/` unless it
is the leading one, then write the terminator (truncate). -/
def term0 (out : List Char) (p : Nat) : List Char :=
  if out.getD (p - 1) '\x00' = '/' ∧ p - 1 ≠ 0 then out.take (p - 1) else out.take p

/-- The separator insertion before a segment:
`if (path_ptr - 1 != orig_ptr && *(path_ptr - 1) != '/') *path_ptr++ = '/'`. -/
def maybeSep (out : List Char) : List Char :=
  if out.length ≠ 1 ∧ out.getD (out.length - 1) '\x00' ≠ '/' then out ++ ['/'] else out

/-- The scanning loop of `vfs_get_absolute_path`.  Mode `true` = at
`first_run` (after a separator), mode `false` = at the `switch` head
(mid-segment).  `out` is the written output. -/
def absStep : Bool → List Char → List Char → List Char
  | true, '/' :: r, out => absStep true r out
  | true, ['.'], out => term0 out out.length
  | true, ['.', '/'], out => term0 out out.length
  | true, ['.', '.'], out => term0 out (popPtr out)
  | true, ['.', '.', '/'], out => term0 out (popPtr out)
  | true, '.' :: '.' :: '/' :: r, out => absStep true r (out.take (popPtr out))
  | true, '.' :: '/' :: r, out => absStep true r out
  | true, [], out => term0 (maybeSep out) (maybeSep out).length
  | true, c :: r, out => absStep false r (maybeSep out ++ [c])
  | false, [], out => term0 out out.length
  | false, '/' :: r, out => absStep true r out
  | false, c :: r, out => absStep false r (out ++ [c])

/-- `vfs_get_absolute_path(path_ptr, path, pwd)`: empty input copies `pwd`;
an input starting `/` writes the leading `/` and continues after it; any
other input is appended after a copy of `pwd`. -/
def vfs_get_absolute_path (path pwd : List Char) : List Char :=
  match path with
  | [] => pwd
  | '/' :: r => absStep true r ['/']
  | _ => absStep true path pwd

/-! Canonicality, stated as the four properties of the specification. -/

/-- The result is absolute: it starts with `/`. -/
def isAbsolute (s : List Char) : Prop := s.head? = some '/'

/-- No two consecutive `/` characters. -/
def noDblSlash : List Char → Bool
  | [] => true
  | [_] => true
  | a :: b :: rest => !(a = '/' && b = '/') && noDblSlash (b :: rest)

/-- Split on `/`: the list of (possibly empty) maximal `/`-free runs. -/
def splitSlash : List Char → List (List Char)
  | [] => [[]]
  | '/' :: rest => [] :: splitSlash rest
  | c :: rest =>
      match splitSlash rest with
      | t :: ts => (c :: t) :: ts
      | [] => [[c]]

/-- No `.` or `..` segments. -/
def NoDotSegs (s : List Char) : Prop :=
  ∀ t ∈ splitSlash s, t ≠ ['.'] ∧ t ≠ ['.', '.']

/-- No trailing `/` unless the whole string is exactly `/`. -/
def NoTrailingSlash (s : List Char) : Prop := s.getLast? = some '/' → s = ['/']

/-- The canonical-path property of the specification: absolute, no `//`, no
`.` or `..` segments, no trailing `/` unless exactly `/`. -/
def CanonicalPath (s : List Char) : Prop :=
  isAbsolute s ∧ noDblSlash s = true ∧ NoDotSegs s ∧ NoTrailingSlash s

instance : DecidablePred CanonicalPath := by
  intro s
  unfold CanonicalPath isAbsolute NoDotSegs NoTrailingSlash
  infer_instance

/-! Canonical outputs as rendered segment lists: the proof invariant.  A
canonical absolute path is `render segs` for a list of good segments. -/

/-- A good segment: nonempty, slash-free, and neither `.` nor `..`. -/
def GoodSeg (t : List Char) : Prop :=
  t ≠ [] ∧ (∀ c ∈ t, c ≠ '/') ∧ t ≠ ['.'] ∧ t ≠ ['.', '.']

/-- Render a segment list as an absolute path: `[] ↦ "/"`,
`[a, b] ↦ "/a/b"`. -/
def render : List (List Char) → List Char
  | [] => ['/']
  | [t] => '/' :: t
  | t :: rest => '/' :: (t ++ render rest)

theorem render_head : ∀ segs, ∃ u, render segs = '/' :: u := by
  intro segs
  match segs with
  | [] => exact ⟨[], rfl⟩
  | [t] => exact ⟨t, rfl⟩
  | t :: s :: ss => exact ⟨t ++ render (s :: ss), rfl⟩

theorem render_length_pos (segs : List (List Char)) : 0 < (render segs).length := by
  obtain ⟨u, hu⟩ := render_head segs
  simp [hu]

theorem render_cons_length (t : List Char) (rest : List (List Char)) (ht : t ≠ []) :
    2 ≤ (render (t :: rest)).length := by
  have htl : 1 ≤ t.length := by
    cases t with
    | nil => exact absurd rfl ht
    | cons a l => simp
  match rest with
  | [] =>
      show 2 ≤ ('/' :: t).length
      simp
      omega
  | s :: ss =>
      show 2 ≤ ('/' :: (t ++ render (s :: ss))).length
      simp
      omega

theorem render_snoc : ∀ (segs : List (List Char)) (t : List Char), segs ≠ [] →
    render (segs ++ [t]) = render segs ++ '/' :: t := by
  intro segs
  induction segs with
  | nil => intro t h; exact absurd rfl h
  | cons a rest ih =>
      intro t _
      cases rest with
      | nil =>
          show '/' :: (a ++ render [t]) = ('/' :: a) ++ '/' :: t
          show '/' :: (a ++ '/' :: t) = ('/' :: a) ++ '/' :: t
          simp
      | cons b ss =>
          show '/' :: (a ++ render ((b :: ss) ++ [t])) = ('/' :: (a ++ render (b :: ss))) ++ '/' :: t
          rw [ih t (by simp)]
          simp

theorem getLast?_append_ne_nil (A B : List Char) (hb : B ≠ []) :
    (A ++ B).getLast? = B.getLast? := by
  rw [List.getLast?_append]
  cases hB : B.getLast? with
  | none =>
      exact absurd (List.getLast?_eq_none_iff.mp hB) hb
  | some x => rfl

theorem render_snoc_getLast (segs : List (List Char)) (t : List Char) (ht : t ≠ []) :
    (render (segs ++ [t])).getLast? = t.getLast? := by
  cases segs with
  | nil =>
      show (['/'] ++ t).getLast? = t.getLast?
      exact getLast?_append_ne_nil ['/'] t ht
  | cons s ss =>
      rw [render_snoc (s :: ss) t (by simp)]
      rw [getLast?_append_ne_nil _ ('/' :: t) (by simp)]
      show (['/'] ++ t).getLast? = t.getLast?
      exact getLast?_append_ne_nil ['/'] t ht

theorem getD_last (l : List Char) (d : Char) :
    l.getD (l.length - 1) d = l.getLast?.getD d := by
  rw [List.getD_eq_getElem?_getD, List.getLast?_eq_getElem?]

theorem render_last_ne_slash (segs : List (List Char)) (t : List Char) (ht : t ≠ [])
    (hs : ∀ c ∈ t, c ≠ '/') :
    (render (segs ++ [t])).getD ((render (segs ++ [t])).length - 1) '\x00' ≠ '/' := by
  rw [getD_last, render_snoc_getLast segs t ht]
  cases hL : t.getLast? with
  | none => exact absurd (List.getLast?_eq_none_iff.mp hL) ht
  | some x =>
      have hx : x ∈ t := by
        obtain ⟨h9, hx9⟩ := List.mem_getLast?_eq_getLast (l := t) (x := x) hL
        rw [hx9]
        exact List.getLast_mem h9
      simpa using hs x hx

theorem rewind_stop (out : List Char) (p : Nat) (h : out.getD p '\x00' = '/') :
    rewind out p = p := by
  cases p with
  | zero => rfl
  | succ q => simp only [rewind, if_pos h]

theorem getD_seg_ne (A t : List Char) (hne : ∀ c ∈ t, c ≠ '/') (j : Nat) :
    (A ++ '/' :: t).getD (A.length + 1 + j) '\x00' ≠ '/' := by
  rw [List.getD_append_right A ('/' :: t) '\x00' (A.length + 1 + j) (by omega)]
  have h1 : A.length + 1 + j - A.length = j + 1 := by omega
  rw [h1]
  show ('/' :: t).getD (j + 1) '\x00' ≠ '/'
  have h2 : ('/' :: t).getD (j + 1) '\x00' = t.getD j '\x00' := rfl
  rw [h2]
  by_cases hj : j < t.length
  · rw [List.getD_eq_getElem t '\x00' hj]
    exact hne t[j] (List.getElem_mem hj)
  · rw [List.getD_eq_default t '\x00' (by omega)]
    decide

theorem getD_at_slash (A t : List Char) :
    (A ++ '/' :: t).getD A.length '\x00' = '/' := by
  rw [List.getD_append_right A ('/' :: t) '\x00' A.length (by omega)]
  simp

theorem rewind_seg (A t : List Char) (hne : ∀ c ∈ t, c ≠ '/') :
    ∀ k, k ≤ t.length → rewind (A ++ '/' :: t) (A.length + 1 + k) = A.length := by
  intro k
  induction k with
  | zero =>
      intro _
      have h1 : A.length + 1 + 0 = A.length + 1 := by omega
      rw [h1]
      simp only [rewind]
      rw [if_neg (by simpa using getD_seg_ne A t hne 0)]
      exact rewind_stop _ _ (getD_at_slash A t)
  | succ k ih =>
      intro hk
      have h1 : A.length + 1 + (k + 1) = (A.length + 1 + k) + 1 := by omega
      rw [h1]
      simp only [rewind]
      rw [if_neg (by
        have := getD_seg_ne A t hne (k + 1)
        have h2 : A.length + 1 + (k + 1) = A.length + 1 + k + 1 := by omega
        rw [h2] at this
        exact this)]
      exact ih (by omega)

theorem popPtr_render (segs : List (List Char)) (t : List Char) (hne : ∀ c ∈ t, c ≠ '/') :
    popPtr (render (segs ++ [t])) = (render segs).length ∧
    (render (segs ++ [t])).take ((render segs).length) = render segs := by
  cases segs with
  | nil =>
      have h2 : rewind ('/' :: t) (t.length + 1) = 0 := by
        have h3 := rewind_seg [] t hne t.length (le_refl _)
        simpa [Nat.add_comm] using h3
      constructor
      · show popPtr ('/' :: t) = 1
        dsimp only [popPtr]
        have h4 : ('/' :: t).length = t.length + 1 := by simp
        rw [h4, h2]
        simp
      · show ('/' :: t).take 1 = ['/']
        simp
  | cons s ss =>
      have hsnoc : render ((s :: ss) ++ [t]) = render (s :: ss) ++ '/' :: t :=
        render_snoc (s :: ss) t (by simp)
      have hlen : (render (s :: ss) ++ '/' :: t).length
          = (render (s :: ss)).length + 1 + t.length := by simp; omega
      have hrw : rewind (render (s :: ss) ++ '/' :: t) ((render (s :: ss) ++ '/' :: t).length)
          = (render (s :: ss)).length := by
        rw [hlen]
        exact rewind_seg (render (s :: ss)) t hne t.length (le_refl _)
      constructor
      · rw [popPtr, hsnoc, hrw]
        have : (render (s :: ss)).length ≠ 0 := by
          have := render_length_pos (s :: ss)
          omega
        simp [this]
      · rw [hsnoc]
        exact List.take_left (render (s :: ss)) ('/' :: t)

theorem term0_render (segs : List (List Char)) (hgood : ∀ t ∈ segs, GoodSeg t) :
    term0 (render segs) (render segs).length = render segs := by
  rcases List.eq_nil_or_concat segs with h | ⟨segs0, t, h⟩
  · subst h
    show term0 ['/'] 1 = ['/']
    rw [term0]
    simp
  · rw [List.concat_eq_append] at h
    subst h
    have hg : GoodSeg t := hgood t (by simp)
    rw [term0, if_neg (by
      intro hc
      exact render_last_ne_slash segs0 t hg.1 hg.2.1 hc.1)]
    simp

theorem term0_pop_render (segs : List (List Char)) (t : List Char)
    (hgood : ∀ u ∈ segs, GoodSeg u) (hne : ∀ c ∈ t, c ≠ '/') :
    term0 (render (segs ++ [t])) (popPtr (render (segs ++ [t]))) = render segs := by
  obtain ⟨hp, ht⟩ := popPtr_render segs t hne
  rw [hp, term0]
  rcases List.eq_nil_or_concat segs with h | ⟨segs0, u, h⟩
  · subst h
    rw [if_neg (by simp [render])]
    exact ht
  · rw [List.concat_eq_append] at h
    subst h
    have hg : GoodSeg u := hgood u (by simp)
    have hX : segs0 ++ [u] ≠ [] := by simp
    have hsnoc : render ((segs0 ++ [u]) ++ [t]) = render (segs0 ++ [u]) ++ '/' :: t :=
      render_snoc _ t hX
    have hlast := render_last_ne_slash segs0 u hg.1 hg.2.1
    have hpos := render_length_pos (segs0 ++ [u])
    rw [if_neg (by
      intro hc
      apply hlast
      have h4 : (render (segs0 ++ [u])).length - 1 < (render (segs0 ++ [u])).length := by
        omega
      rw [← List.getD_append (render (segs0 ++ [u])) ('/' :: t) '\x00' _ h4, ← hsnoc]
      exact hc.1)]
    exact ht

theorem render_snoc_length_two (segs0 : List (List Char)) (u : List Char) (hu : u ≠ []) :
    2 ≤ (render (segs0 ++ [u])).length := by
  cases segs0 with
  | nil => exact render_cons_length u [] hu
  | cons s ss =>
      rw [render_snoc (s :: ss) u (by simp)]
      have := render_length_pos (s :: ss)
      simp
      omega

theorem maybeSep_render_nil : maybeSep (render []) = render [] := by
  show maybeSep ['/'] = ['/']
  rw [maybeSep, if_neg (by simp)]

theorem maybeSep_render (segs : List (List Char)) (hne : segs ≠ [])
    (hgood : ∀ t ∈ segs, GoodSeg t) :
    maybeSep (render segs) = render segs ++ ['/'] := by
  rcases List.eq_nil_or_concat segs with h | ⟨segs0, u, h⟩
  · exact absurd h hne
  · rw [List.concat_eq_append] at h
    subst h
    have hg : GoodSeg u := hgood u (by simp)
    have h2 := render_snoc_length_two segs0 u hg.1
    rw [maybeSep, if_pos ⟨by omega, render_last_ne_slash segs0 u hg.1 hg.2.1⟩]

theorem term0_maybeSep_render (segs : List (List Char)) (hgood : ∀ t ∈ segs, GoodSeg t) :
    term0 (maybeSep (render segs)) (maybeSep (render segs)).length = render segs := by
  cases hs : segs with
  | nil =>
      rw [maybeSep_render_nil]
      exact term0_render [] (by simp)
  | cons s ss =>
      rw [← hs, maybeSep_render segs (by simp [hs]) hgood]
      have hpos := render_length_pos segs
      rw [term0]
      have hlen : (render segs ++ ['/']).length = (render segs).length + 1 := by simp
      rw [if_pos ?_]
      · rw [hlen]
        have h3 : (render segs).length + 1 - 1 = (render segs).length := by omega
        rw [h3]
        exact List.take_left (render segs) ['/']
      · constructor
        · rw [hlen]
          have h3 : (render segs).length + 1 - 1 = (render segs).length := by omega
          rw [h3]
          rw [List.getD_append_right (render segs) ['/'] '\x00' _ (by omega)]
          simp
        · rw [hlen]
          omega

theorem render_seg_extend (segs : List (List Char)) (frag : List Char) (c : Char) :
    render (segs ++ [frag]) ++ [c] = render (segs ++ [frag ++ [c]]) := by
  cases segs with
  | nil =>
      show ('/' :: frag) ++ [c] = '/' :: (frag ++ [c])
      simp
  | cons s ss =>
      rw [render_snoc (s :: ss) frag (by simp), render_snoc (s :: ss) (frag ++ [c]) (by simp)]
      simp

theorem maybeSep_render_char (segs : List (List Char)) (hgood : ∀ t ∈ segs, GoodSeg t)
    (c : Char) :
    maybeSep (render segs) ++ [c] = render (segs ++ [[c]]) := by
  cases hs : segs with
  | nil =>
      rw [maybeSep_render_nil]
      show ['/'] ++ [c] = '/' :: [c]
      simp
  | cons s ss =>
      rw [← hs, maybeSep_render segs (by simp [hs]) hgood,
        render_snoc segs [c] (by simp [hs])]
      simp

theorem takeWhile_ne_slash_nil (r : List Char)
    (h : r.takeWhile (fun ch => ch != '/') = []) : r = [] ∨ ∃ r2, r = '/' :: r2 := by
  cases r with
  | nil => exact Or.inl rfl
  | cons d r2 =>
      by_cases hd : d = '/'
      · exact Or.inr ⟨r2, by rw [hd]⟩
      · rw [List.takeWhile_cons, if_pos (by simp [hd])] at h
        exact absurd h (by simp)

theorem takeWhile_ne_slash_cons (r : List Char) (x : Char) (xs : List Char)
    (h : r.takeWhile (fun ch => ch != '/') = x :: xs) :
    ∃ r2, r = x :: r2 ∧ r2.takeWhile (fun ch => ch != '/') = xs := by
  cases r with
  | nil => exact absurd h (by simp)
  | cons d r2 =>
      by_cases hd : d = '/'
      · rw [List.takeWhile_cons, if_neg (by simp [hd])] at h
        exact absurd h (by simp)
      · rw [List.takeWhile_cons, if_pos (by simp [hd])] at h
        injection h with h1 h2
        exact ⟨r2, by rw [h1], h2⟩

/-- The central invariant of `vfs_get_absolute_path`: started at `first_run`
(mode `true`) on an output that renders a list of good segments — or
mid-segment (mode `false`) on an output rendering good segments plus a
nonempty slash-free fragment whose completion by the current run of the input
is neither `.` nor `..` — the scan loop terminates with an output rendering a
list of good segments. -/
theorem absStep_render :
    ∀ (mode : Bool) (path out : List Char),
      (mode = true → ∃ segs, (∀ t ∈ segs, GoodSeg t) ∧ out = render segs) →
      (mode = false → ∃ segs frag, (∀ t ∈ segs, GoodSeg t) ∧
          out = render (segs ++ [frag]) ∧ frag ≠ [] ∧ (∀ ch ∈ frag, ch ≠ '/') ∧
          frag ++ path.takeWhile (fun ch => ch != '/') ≠ ['.'] ∧
          frag ++ path.takeWhile (fun ch => ch != '/') ≠ ['.', '.']) →
      ∃ segs2, (∀ t ∈ segs2, GoodSeg t) ∧ absStep mode path out = render segs2 := by
  intro mode path out
  induction mode, path, out using absStep.induct
  next r out ih =>
    intro h1 _
    exact ih h1 (fun h => Bool.noConfusion h)
  next out =>
    intro h1 _
    obtain ⟨segs, hg, ho⟩ := h1 rfl
    subst ho
    exact ⟨segs, hg, term0_render segs hg⟩
  next out =>
    intro h1 _
    obtain ⟨segs, hg, ho⟩ := h1 rfl
    subst ho
    exact ⟨segs, hg, term0_render segs hg⟩
  next out =>
    intro h1 _
    obtain ⟨segs, hg, ho⟩ := h1 rfl
    subst ho
    rcases List.eq_nil_or_concat segs with h | ⟨segs0, u, h⟩
    · subst h
      exact ⟨[], by simp, by decide⟩
    · rw [List.concat_eq_append] at h
      subst h
      have hgu : GoodSeg u := hg u (by simp)
      exact ⟨segs0, fun t ht => hg t (by simp [ht]),
        term0_pop_render segs0 u (fun t ht => hg t (by simp [ht])) hgu.2.1⟩
  next out =>
    intro h1 _
    obtain ⟨segs, hg, ho⟩ := h1 rfl
    subst ho
    rcases List.eq_nil_or_concat segs with h | ⟨segs0, u, h⟩
    · subst h
      exact ⟨[], by simp, by decide⟩
    · rw [List.concat_eq_append] at h
      subst h
      have hgu : GoodSeg u := hg u (by simp)
      exact ⟨segs0, fun t ht => hg t (by simp [ht]),
        term0_pop_render segs0 u (fun t ht => hg t (by simp [ht])) hgu.2.1⟩
  next r out hr ih =>
    intro h1 _
    obtain ⟨segs, hg, ho⟩ := h1 rfl
    subst ho
    have hI1 : ∃ segs3, (∀ t ∈ segs3, GoodSeg t) ∧
        (render segs).take (popPtr (render segs)) = render segs3 := by
      rcases List.eq_nil_or_concat segs with h | ⟨segs0, u, h⟩
      · subst h
        exact ⟨[], by simp, by decide⟩
      · rw [List.concat_eq_append] at h
        subst h
        have hgu : GoodSeg u := hg u (by simp)
        refine ⟨segs0, fun t ht => hg t (by simp [ht]), ?_⟩
        rw [(popPtr_render segs0 u hgu.2.1).1]
        exact (popPtr_render segs0 u hgu.2.1).2
    obtain ⟨segs3, hg3, he3⟩ := hI1
    rw [absStep.eq_6 (render segs) r hr]
    exact ih (fun _ => ⟨segs3, hg3, he3⟩) (fun h => Bool.noConfusion h)
  next r out hr ih =>
    intro h1 _
    rw [absStep.eq_7 out r hr]
    exact ih h1 (fun h => Bool.noConfusion h)
  next out =>
    intro h1 _
    obtain ⟨segs, hg, ho⟩ := h1 rfl
    subst ho
    exact ⟨segs, hg, term0_maybeSep_render segs hg⟩
  next c r out hslash hd1 hd2 hd3 hd4 hd5 hd6 ih =>
    intro h1 _
    obtain ⟨segs, hg, ho⟩ := h1 rfl
    subst ho
    have hcne : c ≠ '/' := fun h => hslash h
    rw [absStep.eq_9 (render segs) c r hslash hd1 hd2 hd3 hd4 hd5 hd6]
    refine ih (fun h => Bool.noConfusion h)
      (fun _ => ⟨segs, [c], hg, maybeSep_render_char segs hg c, by simp, ?_, ?_, ?_⟩)
    · intro ch hch
      have : ch = c := by simpa using hch
      rw [this]
      exact hcne
    · intro hbad
      rw [List.singleton_append] at hbad
      have hc1 : c = '.' := by
        cases hX : r.takeWhile (fun ch => ch != '/') with
        | nil => rw [hX] at hbad; simpa using hbad
        | cons y ys => rw [hX] at hbad; simp at hbad
      have hc2 : r.takeWhile (fun ch => ch != '/') = [] := by
        cases hX : r.takeWhile (fun ch => ch != '/') with
        | nil => rfl
        | cons y ys => rw [hX] at hbad; simp at hbad
      rcases takeWhile_ne_slash_nil r hc2 with h | ⟨r2, h⟩
      · exact hd1 hc1 h
      · exact hd6 r2 hc1 h
    · intro hbad
      rw [List.singleton_append] at hbad
      have hc12 : c = '.' ∧ r.takeWhile (fun ch => ch != '/') = ['.'] := by
        cases hX : r.takeWhile (fun ch => ch != '/') with
        | nil => rw [hX] at hbad; simp at hbad
        | cons y ys =>
            rw [hX] at hbad
            injection hbad with hb1 hb2
            injection hb2 with hb3 hb4
            subst hb3
            subst hb4
            exact ⟨hb1, rfl⟩
      obtain ⟨hc1, hc2⟩ := hc12
      obtain ⟨r2, hr2, htw2⟩ := takeWhile_ne_slash_cons r '.' [] hc2
      rcases takeWhile_ne_slash_nil r2 htw2 with h | ⟨r3, h⟩
      · exact hd3 hc1 (by rw [hr2, h])
      · exact hd5 r3 hc1 (by rw [hr2, h])
  next out =>
    intro _ h2
    obtain ⟨segs, frag, hg, ho, hfne, hfs, hb1, hb2⟩ := h2 rfl
    subst ho
    have hfg : GoodSeg frag := by
      refine ⟨hfne, hfs, ?_, ?_⟩
      · intro h
        exact hb1 (by simp [h])
      · intro h
        exact hb2 (by simp [h])
    have hgood2 : ∀ t ∈ segs ++ [frag], GoodSeg t := by
      intro t ht
      rcases List.mem_append.mp ht with h | h
      · exact hg t h
      · rw [show t = frag by simpa using h]
        exact hfg
    exact ⟨segs ++ [frag], hgood2, term0_render (segs ++ [frag]) hgood2⟩
  next r out ih =>
    intro _ h2
    obtain ⟨segs, frag, hg, ho, hfne, hfs, hb1, hb2⟩ := h2 rfl
    subst ho
    have hfg : GoodSeg frag := by
      refine ⟨hfne, hfs, ?_, ?_⟩
      · intro h
        exact hb1 (by simp [h, List.takeWhile_cons])
      · intro h
        exact hb2 (by simp [h, List.takeWhile_cons])
    have hgood2 : ∀ t ∈ segs ++ [frag], GoodSeg t := by
      intro t ht
      rcases List.mem_append.mp ht with h | h
      · exact hg t h
      · rw [show t = frag by simpa using h]
        exact hfg
    exact ih (fun _ => ⟨segs ++ [frag], hgood2, rfl⟩) (fun h => Bool.noConfusion h)
  next c r out hslash ih =>
    intro _ h2
    obtain ⟨segs, frag, hg, ho, hfne, hfs, hb1, hb2⟩ := h2 rfl
    subst ho
    have hcne : c ≠ '/' := fun h => hslash h
    have htw : (c :: r).takeWhile (fun ch => ch != '/')
        = c :: r.takeWhile (fun ch => ch != '/') := by
      simp [List.takeWhile_cons, hcne]
    have hassoc : ∀ X : List Char, (frag ++ [c]) ++ X = frag ++ (c :: X) := by
      intro X
      simp
    rw [absStep.eq_12 (render (segs ++ [frag])) c r hslash]
    refine ih (fun h => Bool.noConfusion h)
      (fun _ => ⟨segs, frag ++ [c], hg, render_seg_extend segs frag c, by simp, ?_, ?_, ?_⟩)
    · intro ch hch
      rcases List.mem_append.mp hch with h | h
      · exact hfs ch h
      · rw [show ch = c by simpa using h]
        exact hcne
    · intro hbad
      apply hb1
      rw [htw, ← hassoc]
      exact hbad
    · intro hbad
      apply hb2
      rw [htw, ← hassoc]
      exact hbad

theorem noDblSlash_cons_of (a : Char) (l : List Char) (h : noDblSlash l = true)
    (hh : a ≠ '/' ∨ l.head? ≠ some '/') : noDblSlash (a :: l) = true := by
  cases l with
  | nil => rfl
  | cons b r =>
      show (!(a = '/' && b = '/') && noDblSlash (b :: r)) = true
      rw [h]
      rcases hh with hha | hhb
      · simp [hha]
      · have : b ≠ '/' := by simpa using hhb
        simp [this]

theorem noDblSlash_tail (a : Char) (l : List Char) (h : noDblSlash (a :: l) = true) :
    noDblSlash l = true := by
  cases l with
  | nil => rfl
  | cons b r =>
      have h2 : (!(a = '/' && b = '/') && noDblSlash (b :: r)) = true := h
      exact ((Bool.and_eq_true _ _).mp h2).2

theorem noDblSlash_append_seg (t : List Char) (l : List Char) (ht : ∀ c ∈ t, c ≠ '/')
    (hl : noDblSlash l = true) : noDblSlash (t ++ l) = true := by
  induction t with
  | nil => simpa using hl
  | cons c t' ih =>
      exact noDblSlash_cons_of c (t' ++ l)
        (ih (fun d hd => ht d (by simp [hd])))
        (Or.inl (ht c (by simp)))

theorem noDblSlash_append_right (t l : List Char) (h : noDblSlash (t ++ l) = true) :
    noDblSlash l = true := by
  induction t with
  | nil => simpa using h
  | cons c t' ih => exact ih (noDblSlash_tail c (t' ++ l) h)

theorem head?_append_ne_nil (t l : List Char) (ht : t ≠ []) :
    (t ++ l).head? = t.head? := by
  cases t with
  | nil => exact absurd rfl ht
  | cons c t' => rfl

theorem noDblSlash_render (segs : List (List Char)) (hgood : ∀ t ∈ segs, GoodSeg t) :
    noDblSlash (render segs) = true := by
  induction segs with
  | nil => rfl
  | cons t rest ih =>
      have ht := hgood t (by simp)
      have hthead : ∀ l : List Char, (t ++ l).head? ≠ some '/' := by
        intro l
        rw [head?_append_ne_nil t l ht.1]
        cases hc : t with
        | nil => exact absurd hc ht.1
        | cons c t' =>
            have := ht.2.1 c (by simp [hc])
            simpa using this
      cases rest with
      | nil =>
          show noDblSlash ('/' :: t) = true
          refine noDblSlash_cons_of '/' t ?_ ?_
          · have := noDblSlash_append_seg t [] ht.2.1 rfl
            simpa using this
          · right
            have h2 := hthead []
            simpa using h2
      | cons s ss =>
          show noDblSlash ('/' :: (t ++ render (s :: ss))) = true
          refine noDblSlash_cons_of '/' (t ++ render (s :: ss)) ?_ (Or.inr (hthead _))
          exact noDblSlash_append_seg t (render (s :: ss)) ht.2.1
            (ih (fun w hw => hgood w (by simp [hw])))

theorem splitSlash_noSlash : ∀ (t : List Char), (∀ c ∈ t, c ≠ '/') → splitSlash t = [t] := by
  intro t
  induction t with
  | nil => intro _; rfl
  | cons c t' ih =>
      intro h
      rw [splitSlash.eq_3 c t' (h c (by simp)), ih (fun d hd => h d (by simp [hd]))]

theorem splitSlash_append (t l : List Char) (ht : ∀ c ∈ t, c ≠ '/') :
    splitSlash (t ++ '/' :: l) = t :: splitSlash l := by
  induction t with
  | nil => rfl
  | cons c t' ih =>
      rw [show (c :: t') ++ '/' :: l = c :: (t' ++ '/' :: l) from rfl]
      rw [splitSlash.eq_3 c (t' ++ '/' :: l) (ht c (by simp)),
        ih (fun d hd => ht d (by simp [hd]))]

theorem NoDotSegs_render : ∀ (segs : List (List Char)), (∀ t ∈ segs, GoodSeg t) →
    NoDotSegs (render segs) := by
  intro segs
  induction segs with
  | nil =>
      intro _ u hu
      have : u = [] := by
        have h2 : splitSlash (render []) = [[], []] := rfl
        rw [h2] at hu
        simpa using (by simpa using hu : u = [] ∨ u = [])
      subst this
      exact ⟨by simp, by simp⟩
  | cons t rest ih =>
      intro hgood u hu
      have ht := hgood t (by simp)
      cases rest with
      | nil =>
          rw [show render [t] = '/' :: t from rfl] at hu
          rw [show splitSlash ('/' :: t) = [] :: splitSlash t from rfl,
            splitSlash_noSlash t ht.2.1] at hu
          simp at hu
          rcases hu with h | h
          · subst h; exact ⟨by simp, by simp⟩
          · subst h; exact ⟨ht.2.2.1, ht.2.2.2⟩
      | cons s ss =>
          obtain ⟨v, hv⟩ := render_head (s :: ss)
          have hr : render (t :: s :: ss) = '/' :: (t ++ '/' :: v) := by
            show '/' :: (t ++ render (s :: ss)) = _
            rw [hv]
          rw [hr, show splitSlash ('/' :: (t ++ '/' :: v)) = [] :: splitSlash (t ++ '/' :: v)
            from rfl, splitSlash_append t v ht.2.1] at hu
          simp at hu
          rcases hu with h | h | h
          · subst h; exact ⟨by simp, by simp⟩
          · subst h; exact ⟨ht.2.2.1, ht.2.2.2⟩
          · apply ih (fun w hw => hgood w (by simp [hw])) u
            rw [hv, show splitSlash ('/' :: v) = [] :: splitSlash v from rfl]
            simp [h]

theorem NoTrailingSlash_render (segs : List (List Char)) (hgood : ∀ t ∈ segs, GoodSeg t) :
    NoTrailingSlash (render segs) := by
  rcases List.eq_nil_or_concat segs with h | ⟨segs0, u, h⟩
  · subst h
    intro _
    rfl
  · rw [List.concat_eq_append] at h
    subst h
    have hg : GoodSeg u := hgood u (by simp)
    intro hlast
    exfalso
    rw [render_snoc_getLast segs0 u hg.1] at hlast
    have hx : '/' ∈ u := by
      obtain ⟨h9, hx9⟩ := List.mem_getLast?_eq_getLast (l := u) (x := '/') hlast
      rw [hx9]
      exact List.getLast_mem h9
    exact hg.2.1 '/' hx rfl

theorem render_canonical (segs : List (List Char)) (hgood : ∀ t ∈ segs, GoodSeg t) :
    CanonicalPath (render segs) := by
  refine ⟨?_, noDblSlash_render segs hgood, NoDotSegs_render segs hgood,
    NoTrailingSlash_render segs hgood⟩
  obtain ⟨u, hu⟩ := render_head segs
  rw [hu]
  rfl

theorem dropWhile_head_not (p : Char → Bool) :
    ∀ (l : List Char) (d : Char) (r : List Char), l.dropWhile p = d :: r → p d = false := by
  intro l
  induction l with
  | nil => intro d r h; simp at h
  | cons a l' ih =>
      intro d r h
      rw [List.dropWhile_cons] at h
      by_cases ha : p a = true
      · rw [if_pos ha] at h
        exact ih d r h
      · rw [if_neg ha] at h
        injection h with h1 _
        rw [← h1]
        simpa using ha

theorem canonical_render : ∀ (n : Nat) (s : List Char), s.length ≤ n → CanonicalPath s →
    ∃ segs, (∀ t ∈ segs, GoodSeg t) ∧ s = render segs := by
  intro n
  induction n with
  | zero =>
      intro s hl hc
      cases s with
      | nil => exact absurd hc.1 (by simp [isAbsolute])
      | cons a r => simp at hl
  | succ n ih =>
      intro s hl hc
      obtain ⟨habs, hdbl, hdots, htrail⟩ := hc
      cases s with
      | nil => exact absurd habs (by simp [isAbsolute])
      | cons a rest =>
          have ha : a = '/' := by simpa [isAbsolute] using habs
          subst ha
          cases rest with
          | nil => exact ⟨[], by simp, rfl⟩
          | cons d r2 =>
              have hd : d ≠ '/' := by
                intro hd
                subst hd
                have h9 : noDblSlash ('/' :: '/' :: r2) = true := hdbl
                have h10 : ((!('/' = '/' && '/' = '/')) && noDblSlash ('/' :: r2)) = true := h9
                simp at h10
              have hsplit : (d :: r2).takeWhile (fun ch => ch != '/')
                  ++ (d :: r2).dropWhile (fun ch => ch != '/') = d :: r2 :=
                List.takeWhile_append_dropWhile _ _
              have htne : (d :: r2).takeWhile (fun ch => ch != '/') ≠ [] := by
                rw [List.takeWhile_cons, if_pos (by simp [hd])]
                simp
              have htns : ∀ c ∈ (d :: r2).takeWhile (fun ch => ch != '/'), c ≠ '/' := by
                intro c hcmem
                have := List.mem_takeWhile_imp hcmem
                simpa using this
              cases hrr : (d :: r2).dropWhile (fun ch => ch != '/') with
              | nil =>
                  rw [hrr, List.append_nil] at hsplit
                  have h21 : splitSlash (d :: r2)
                      = [(d :: r2).takeWhile (fun ch => ch != '/')] := by
                    conv_lhs => rw [← hsplit]
                    exact splitSlash_noSlash _ htns
                  have htin : (d :: r2).takeWhile (fun ch => ch != '/')
                      ∈ splitSlash ('/' :: d :: r2) := by
                    rw [show splitSlash ('/' :: d :: r2) = [] :: splitSlash (d :: r2) from rfl,
                      h21]
                    simp
                  have hdt := hdots _ htin
                  refine ⟨[(d :: r2).takeWhile (fun ch => ch != '/')],
                    by simpa using ⟨htne, htns, hdt.1, hdt.2⟩, ?_⟩
                  show '/' :: d :: r2 = '/' :: (d :: r2).takeWhile (fun ch => ch != '/')
                  rw [hsplit]
              | cons e rr2 =>
                  have he : e = '/' := by
                    have := dropWhile_head_not _ (d :: r2) e rr2 hrr
                    simpa using this
                  subst he
                  rw [hrr] at hsplit
                  have hsrw : ('/' : Char) :: d :: r2
                      = ('/' :: (d :: r2).takeWhile (fun ch => ch != '/')) ++ '/' :: rr2 := by
                    rw [show ('/' :: (d :: r2).takeWhile (fun ch => ch != '/')) ++ '/' :: rr2
                        = '/' :: ((d :: r2).takeWhile (fun ch => ch != '/') ++ '/' :: rr2)
                        from rfl]
                    rw [hsplit]
                  have h20 := splitSlash_append ((d :: r2).takeWhile (fun ch => ch != '/'))
                    rr2 htns
                  rw [hsplit] at h20
                  have hsegsplit : splitSlash ('/' :: d :: r2)
                      = [] :: (d :: r2).takeWhile (fun ch => ch != '/') :: splitSlash rr2 := by
                    rw [show splitSlash ('/' :: d :: r2) = [] :: splitSlash (d :: r2) from rfl]
                    rw [h20]
                  have htin : (d :: r2).takeWhile (fun ch => ch != '/')
                      ∈ splitSlash ('/' :: d :: r2) := by
                    rw [hsegsplit]
                    simp
                  have hdt := hdots _ htin
                  cases rr2 with
                  | nil =>
                      exfalso
                      have hlast : ('/' :: d :: r2).getLast? = some '/' := by
                        rw [hsrw]
                        exact List.getLast?_concat _
                      have := htrail hlast
                      rw [hsrw] at this
                      simp at this
                  | cons f rr3 =>
                      have hcanon2 : CanonicalPath ('/' :: f :: rr3) := by
                        refine ⟨rfl, ?_, ?_, ?_⟩
                        · have h11 : noDblSlash (d :: r2) = true :=
                            noDblSlash_tail _ _ hdbl
                          rw [show d :: r2
                              = (d :: r2).takeWhile (fun ch => ch != '/') ++ '/' :: f :: rr3
                              from hsplit.symm] at h11
                          exact noDblSlash_append_right _ _ h11
                        · intro u hu
                          rw [show splitSlash ('/' :: f :: rr3)
                              = [] :: splitSlash (f :: rr3) from rfl] at hu
                          rcases (by simpa using hu : u = [] ∨ u ∈ splitSlash (f :: rr3))
                            with h | h
                          · subst h; exact ⟨by simp, by simp⟩
                          · exact hdots u (by rw [hsegsplit]; simp [h])
                        · intro hlast2
                          have hlast : ('/' :: d :: r2).getLast? = some '/' := by
                            rw [hsrw]
                            rw [getLast?_append_ne_nil _ ('/' :: f :: rr3) (by simp)]
                            exact hlast2
                          have := htrail hlast
                          rw [hsrw] at this
                          simp at this
                      have hlen2 : ('/' :: f :: rr3).length ≤ n := by
                        have h12 : ((d :: r2).takeWhile (fun ch => ch != '/')).length
                            + ('/' :: f :: rr3).length = (d :: r2).length := by
                          have h15 := congrArg List.length hsplit
                          simpa using h15
                        have h13 : 1 ≤ ((d :: r2).takeWhile (fun ch => ch != '/')).length := by
                          cases hq : (d :: r2).takeWhile (fun ch => ch != '/') with
                          | nil => exact absurd hq htne
                          | cons x xs => simp
                        have h14 : ('/' :: d :: r2).length ≤ n + 1 := hl
                        simp at h12 h14
                        simp
                        omega
                      obtain ⟨segs2, hg2, he2⟩ := ih ('/' :: f :: rr3) hlen2 hcanon2
                      have hsne : segs2 ≠ [] := by
                        intro h0
                        rw [h0] at he2
                        exact absurd he2 (by simp [render])
                      refine ⟨(d :: r2).takeWhile (fun ch => ch != '/') :: segs2, ?_, ?_⟩
                      · intro u hu
                        rcases (by simpa using hu :
                            u = (d :: r2).takeWhile (fun ch => ch != '/') ∨ u ∈ segs2)
                          with h | h
                        · subst h
                          exact ⟨htne, htns, hdt.1, hdt.2⟩
                        · exact hg2 u h
                      · cases hs2 : segs2 with
                        | nil => exact absurd hs2 hsne
                        | cons x xs =>
                            show ('/' : Char) :: d :: r2
                              = '/' :: ((d :: r2).takeWhile (fun ch => ch != '/')
                                  ++ render (x :: xs))
                            rw [← hs2, ← he2]
                            rw [hsrw]
                            rfl

/-- C2 (amended): for every `(input, cwd)` with `cwd` canonical — absolute,
no `//`, no `.` or `..` segments, no trailing `/` unless exactly `/` — the
result of `vfs_get_absolute_path` is absolute, contains no `//`, no `.` or
`..` segments, and has no trailing `/` unless the whole result is exactly
`/`; and `absolute_path("/a/b/c", "../../x/./y") = "/a/x/y"`.  (A merely
absolute `cwd` does not suffice: see `C2_counterexample`.) -/
theorem C2_absolute_path_canonical :
    (∀ (path pwd : List Char), CanonicalPath pwd →
        CanonicalPath (vfs_get_absolute_path path pwd)) ∧
    vfs_get_absolute_path "../../x/./y".toList "/a/b/c".toList = "/a/x/y".toList := by
  constructor
  · intro path pwd hc
    obtain ⟨segs, hg, hp⟩ := canonical_render pwd.length pwd (le_refl _) hc
    cases path with
    | nil =>
        rw [vfs_get_absolute_path.eq_1]
        exact hc
    | cons c r =>
        by_cases hcs : c = '/'
        · subst hcs
          obtain ⟨segs2, hg2, he2⟩ := absStep_render true r ['/']
            (fun _ => ⟨[], by simp, rfl⟩) (fun h => Bool.noConfusion h)
          rw [vfs_get_absolute_path.eq_2, he2]
          exact render_canonical segs2 hg2
        · subst hp
          obtain ⟨segs2, hg2, he2⟩ := absStep_render true (c :: r) (render segs)
            (fun _ => ⟨segs, hg, rfl⟩) (fun h => Bool.noConfusion h)
          rw [vfs_get_absolute_path.eq_3 (c :: r) (render segs) (by simp)
            (by intro r2 h2; injection h2 with h3 _; exact hcs h3), he2]
          exact render_canonical segs2 hg2
  · decide

/-- C2 counterexample: the cwd `"/a/"` is absolute (starts with `/`), yet for
empty input the normalizer returns it verbatim, and `"/a/"` has a trailing
`/` without being `"/"` — the claim's guarantee fails for a merely absolute
cwd. -/
theorem C2_counterexample :
    (['/', 'a', '/'] : List Char).head? = some '/' ∧
    vfs_get_absolute_path [] ['/', 'a', '/'] = ['/', 'a', '/'] ∧
    ¬ CanonicalPath ['/', 'a', '/'] := by
  refine ⟨rfl, rfl, by decide⟩

/-- C2 witness: the amended statement applied to `input = "x"`,
`cwd = "/a"`. -/
theorem C2_absolute_path_canonical_witness :
    CanonicalPath (vfs_get_absolute_path ['x'] ['/', 'a']) :=
  C2_absolute_path_canonical.1 ['x'] ['/', 'a'] (by decide)
